import Mathlib

/-!
Shallow embedding of `src/python/tank/descriptor/bundle_cache_usage/database.py`
(`BundleCacheUsageDatabase` and `BundleCacheUsageDatabaseEntry`).

Python strings are modelled as `List Char` (`PyStr`); a possibly-`None`
string argument is `Option PyStr`.  The SQLite table `bundles` is modelled
as a `List Entry` in rowid (insertion) order: `INSERT` appends, `UPDATE`
maps over rows in place, `DELETE ... WHERE path=?` filters, and
`SELECT * FROM bundles WHERE path = ?` with `fetchone` is a first-match
`find` over the list.  Timestamps are `Int` (Python ints); the environment
override of `_get_timestamp` is an `Option PyStr` argument and the live
clock reading an `Int` argument, and operations that may raise
`ValueError` from `int(...)` return `Except Unit`.
-/

/-- Python `str` values, modelled as lists of characters. -/
abbrev PyStr := List Char

/-- `os.sep` on the POSIX platforms the bundle cache targets. -/
def OS_SEP : Char := '/'

/-- Fuel-driven worker for `removeAll`.  With fuel at least the length of
the subject string it scans left to right; whenever (nonempty) `pat` is a
prefix of the remaining text the occurrence is skipped (removed) and
scanning resumes after it, otherwise one character is kept. -/
def removeAllAux (pat : PyStr) : Nat → PyStr → PyStr
  | 0, s => s
  | fuel + 1, s =>
    match s with
    | [] => []
    | c :: rest =>
      if pat ≠ [] ∧ pat.isPrefixOf (c :: rest) = true then
        removeAllAux pat fuel (rest.drop (pat.length - 1))
      else
        c :: removeAllAux pat fuel rest

/-- Python `s.replace(pat, "")`: removes every non-overlapping occurrence
of `pat` from `s`, scanning left to right.  (`replace` with an empty
pattern and empty replacement returns the string unchanged, matching the
fuel worker's guard.) -/
def removeAll (pat s : PyStr) : PyStr :=
  removeAllAux pat s.length s

/-- Python `truncated_path[len(os.sep):]` applied when
`truncated_path.startswith(os.sep)`: drops a single leading separator. -/
def stripLeadingSep (s : PyStr) : PyStr :=
  if [OS_SEP].isPrefixOf s = true then s.drop 1 else s

/-- `BundleCacheUsageDatabase._truncate_path`, with the cache root made
explicit.  Returns `none` when the path is `None`, empty, or does not
start with the root; otherwise applies
`bundle_path.replace(self._bundle_cache_root, "")` and strips a single
leading separator. -/
def truncate_path (root : PyStr) (p : Option PyStr) : Option PyStr :=
  match p with
  | none => none
  | some s =>
    if s = [] ∨ ¬ root.isPrefixOf s = true then none
    else some (stripLeadingSep (removeAll root s))

/-- Normalization exactly as §4.2 of the spec words it: strip the leading
`cache_root` prefix (only), then any single leading path separator.
Written for comparison with the source's `truncate_path`. -/
def truncate_path_spec (root : PyStr) (p : Option PyStr) : Option PyStr :=
  match p with
  | none => none
  | some s =>
    if s = [] ∨ ¬ root.isPrefixOf s = true then none
    else some (stripLeadingSep (s.drop root.length))

/-- One row of the `bundles` table, as wrapped by
`BundleCacheUsageDatabaseEntry`: `(path, creation, last_usage, usage_count)`. -/
structure Entry where
  path : PyStr
  creation_time : Int
  last_usage_time : Int
  usage_count : Int
deriving DecidableEq, Repr

/-- The `bundles` table in rowid order. -/
abbrev Ledger := List Entry

/-- `BundleCacheUsageDatabase._find_entry`: first (and, paths being
unique, only) row whose `path` column equals `k`. -/
def find_entry : Ledger → PyStr → Option Entry
  | [], _ => none
  | e :: rest, k => if e.path = k then some e else find_entry rest k

/-- `UPDATE bundles SET last_usage = now, usage_count = cnt WHERE path = k`. -/
def update_rows (L : Ledger) (k : PyStr) (now cnt : Int) : Ledger :=
  L.map fun r =>
    if r.path = k then { r with last_usage_time := now, usage_count := cnt } else r

/-- Body of `_log_usage` after the truncation guard, at a known timestamp
`now`: update the found entry (`last_usage = now`,
`usage_count = entry.usage_count + 1`) or insert
`(k, now, now, initial)`. -/
def log_usage_core (L : Ledger) (k : PyStr) (initial now : Int) : Ledger :=
  match find_entry L k with
  | some e => update_rows L e.path now (e.usage_count + 1)
  | none => L ++ [⟨k, now, now, initial⟩]

/-- Characters Python's `int(str)` strips around the digits. -/
def isPySpace (c : Char) : Bool :=
  c == ' ' || c == '\t' || c == '\n' || c == '\r' || c == '\x0b' || c == '\x0c'

/-- Value of a nonempty all-digit string, else `none`. -/
def digitsToNat? (s : PyStr) : Option Nat :=
  if s ≠ [] ∧ s.all Char.isDigit = true then
    some (s.foldl (fun acc c => 10 * acc + (c.toNat - 48)) 0)
  else none

/-- Python `s.strip()` restricted to whitespace. -/
def pyStrip (s : PyStr) : PyStr :=
  ((s.dropWhile isPySpace).reverse.dropWhile isPySpace).reverse

/-- Python `int(s)` for a `str` argument: optional surrounding
whitespace, an optional sign, then decimal digits; anything else raises
`ValueError`, modelled as `none`. -/
def pyInt (s : PyStr) : Option Int :=
  match pyStrip s with
  | '+' :: ds => (digitsToNat? ds).map Int.ofNat
  | '-' :: ds => (digitsToNat? ds).map fun n => -(n : Int)
  | ds => (digitsToNat? ds).map Int.ofNat

/-- `BundleCacheUsageDatabase._get_timestamp`: if the
`SHOTGUN_BUNDLE_CACHE_USAGE_TIMESTAMP_OVERRIDE` environment variable is
set and nonempty, `int(override)` (a `ValueError` propagates as
`.error`), else `int(time.time())`, passed in as `clock`. -/
def get_timestamp (override : Option PyStr) (clock : Int) : Except Unit Int :=
  match override with
  | none => Except.ok clock
  | some s =>
    if s ≠ [] then
      match pyInt s with
      | some n => Except.ok n
      | none => Except.error ()
    else Except.ok clock

/-- `BundleCacheUsageDatabase._log_usage`: truncate the path; a falsy
result (`None` or the empty string) is a silent no-op reached before any
timestamp is fetched; otherwise fetch the timestamp (possibly raising)
and update-or-insert. -/
def log_usage_impl (root : PyStr) (override : Option PyStr) (clock : Int)
    (L : Ledger) (p : Option PyStr) (initial : Int) : Except Unit Ledger :=
  match truncate_path root p with
  | none => Except.ok L
  | some k =>
    if k = [] then Except.ok L
    else
      match get_timestamp override clock with
      | Except.error u => Except.error u
      | Except.ok now => Except.ok (log_usage_core L k initial now)

/-- `BundleCacheUsageDatabase.log_usage` (record an access):
`_log_usage(bundle_path, 1)`. -/
def log_usage (root : PyStr) (override : Option PyStr) (clock : Int)
    (L : Ledger) (p : Option PyStr) : Except Unit Ledger :=
  log_usage_impl root override clock L p 1

/-- `BundleCacheUsageDatabase.add_unused_bundle` (record known unused):
`_log_usage(bundle_path, 0)`. -/
def add_unused_bundle (root : PyStr) (override : Option PyStr) (clock : Int)
    (L : Ledger) (p : Option PyStr) : Except Unit Ledger :=
  log_usage_impl root override clock L p 0

/-- `BundleCacheUsageDatabase.delete_entry`:
`DELETE FROM bundles WHERE path = bundle.path`. -/
def delete_entry : Ledger → Entry → Ledger
  | [], _ => []
  | r :: rest, b =>
    if r.path = b.path then delete_entry rest b else r :: delete_entry rest b

/-- `BundleCacheUsageDatabase.get_bundle`: truncate, and only for a
truthy key consult the table. -/
def get_bundle (root : PyStr) (L : Ledger) (p : Option PyStr) : Option Entry :=
  match truncate_path root p with
  | none => none
  | some k => if k = [] then none else find_entry L k

/-- `BundleCacheUsageDatabase.get_bundle_count`: `SELECT COUNT(*)`. -/
def get_bundle_count (L : Ledger) : Nat :=
  L.length

/-- `BundleCacheUsageDatabase.get_unused_bundles`:
`SELECT * FROM bundles WHERE last_usage <= since_timestamps`. -/
def get_unused_bundles (L : Ledger) (since : Int) : Ledger :=
  L.filter fun e => decide (e.last_usage_time ≤ since)

/-- `_log_usage` at a known timestamp `now` (the value `_get_timestamp`
produced for this call): the state transformer of one successful
operation. -/
def record_at (root : PyStr) (L : Ledger) (p : Option PyStr)
    (initial now : Int) : Ledger :=
  match truncate_path root p with
  | none => L
  | some k => if k = [] then L else log_usage_core L k initial now

/-- One ledger operation together with the timestamp its
`_get_timestamp` call produced (deletions fetch no timestamp). -/
inductive LedgerOp where
  | access (p : Option PyStr) (now : Int)
  | markUnused (p : Option PyStr) (now : Int)
  | del (b : Entry)
deriving DecidableEq, Repr

/-- Apply one operation to the table. -/
def applyOp (root : PyStr) (L : Ledger) : LedgerOp → Ledger
  | LedgerOp.access p now => record_at root L p 1 now
  | LedgerOp.markUnused p now => record_at root L p 0 now
  | LedgerOp.del b => delete_entry L b

/-- Run a sequence of operations left to right. -/
def runOps (root : PyStr) (L : Ledger) : List LedgerOp → Ledger
  | [] => L
  | op :: rest => runOps root (applyOp root L op) rest

/-- The timestamps produced by the timestamp source over a run, in call
order. -/
def opTimestamps : List LedgerOp → List Int
  | [] => []
  | LedgerOp.access _ t :: rest => t :: opTimestamps rest
  | LedgerOp.markUnused _ t :: rest => t :: opTimestamps rest
  | LedgerOp.del _ :: rest => opTimestamps rest

/-- `log_usage` called `N` times on the same path, at the given
timestamps in order. -/
def recordAccessList (root : PyStr) (L : Ledger) (p : Option PyStr) :
    List Int → Ledger
  | [] => L
  | t :: ts => recordAccessList root (record_at root L p 1 t) p ts

/-! Helper lemmas about the string machinery. -/

theorem removeAllAux_nil (pat : PyStr) (fuel : Nat) :
    removeAllAux pat fuel [] = [] := by
  cases fuel <;> rfl

theorem removeAllAux_congr (pat : PyStr) :
    ∀ fuel₁ fuel₂ s, List.length s ≤ fuel₁ → List.length s ≤ fuel₂ →
      removeAllAux pat fuel₁ s = removeAllAux pat fuel₂ s := by
  intro fuel₁
  induction fuel₁ with
  | zero =>
    intro fuel₂ s hs₁ _
    have : s = [] := by
      cases s with
      | nil => rfl
      | cons c rest => simp at hs₁
    subst this
    simp [removeAllAux_nil]
  | succ fuel ih =>
    intro fuel₂ s hs₁ hs₂
    cases s with
    | nil => simp [removeAllAux_nil]
    | cons c rest =>
      cases fuel₂ with
      | zero => simp at hs₂
      | succ fuel' =>
        simp only [List.length_cons] at hs₁ hs₂
        simp only [removeAllAux]
        split
        · exact ih fuel' _ (by simp [List.length_drop]; omega)
            (by simp [List.length_drop]; omega)
        · rw [ih fuel' rest (by omega) (by omega)]

theorem removeAll_nil (pat : PyStr) : removeAll pat [] = [] := by
  simp [removeAll, removeAllAux_nil]

theorem removeAll_cons (pat : PyStr) (c : Char) (rest : PyStr) :
    removeAll pat (c :: rest) =
      if pat ≠ [] ∧ pat.isPrefixOf (c :: rest) = true then
        removeAll pat (rest.drop (pat.length - 1))
      else c :: removeAll pat rest := by
  show removeAllAux pat (rest.length + 1) (c :: rest) = _
  simp only [removeAllAux]
  split
  · exact removeAllAux_congr pat _ _ _ (by simp) (by simp)
  · rfl

theorem removeAll_append_self (pat : PyStr) (hpat : pat ≠ []) (rest : PyStr) :
    removeAll pat (pat ++ rest) = removeAll pat rest := by
  cases pat with
  | nil => exact absurd rfl hpat
  | cons c pr =>
    rw [List.cons_append, removeAll_cons]
    have hpre : (c :: pr).isPrefixOf (c :: (pr ++ rest)) = true := by
      rw [ List.isPrefixOf_iff_prefix, ← List.cons_append]
      exact List.prefix_append _ _
    rw [if_pos ⟨hpat, hpre⟩]
    simp [List.drop_left]

theorem removeAll_of_not_occurring (pat : PyStr) :
    ∀ s, ¬ pat <:+: s → removeAll pat s = s := by
  intro s
  induction s with
  | nil => intro _; exact removeAll_nil pat
  | cons c rest ih =>
    intro h
    rw [removeAll_cons]
    have hnp : ¬ (pat ≠ [] ∧ pat.isPrefixOf (c :: rest) = true) := by
      rintro ⟨-, hpre⟩
      exact h (List.IsPrefix.isInfix ( List.isPrefixOf_iff_prefix.mp hpre))
    rw [if_neg hnp, ih (fun hi => h (List.infix_cons hi))]

/-! Helper lemmas about table lookup and update. -/

theorem find_entry_eq_none_iff (L : Ledger) (k : PyStr) :
    find_entry L k = none ↔ ∀ e ∈ L, ¬ e.path = k := by
  induction L with
  | nil => simp [find_entry]
  | cons r rest ih =>
    simp only [find_entry, List.mem_cons]
    split
    · simp_all
    · simp_all

theorem find_entry_path {L : Ledger} {k : PyStr} {e : Entry}
    (h : find_entry L k = some e) : e.path = k := by
  induction L with
  | nil => simp [find_entry] at h
  | cons r rest ih =>
    simp only [find_entry] at h
    split at h
    · cases h; assumption
    · exact ih h

theorem find_entry_mem {L : Ledger} {k : PyStr} {e : Entry}
    (h : find_entry L k = some e) : e ∈ L := by
  induction L with
  | nil => simp [find_entry] at h
  | cons r rest ih =>
    simp only [find_entry] at h
    split at h
    · cases h; exact List.mem_cons_self _ _
    · exact List.mem_cons_of_mem _ (ih h)

theorem find_entry_append_of_none {L : Ledger} {k : PyStr}
    (h : find_entry L k = none) (L' : Ledger) :
    find_entry (L ++ L') k = find_entry L' k := by
  induction L with
  | nil => rfl
  | cons r rest ih =>
    simp only [find_entry] at h
    by_cases hr : r.path = k
    · rw [if_pos hr] at h
      exact absurd h (by simp)
    · rw [if_neg hr] at h
      show find_entry (r :: (rest ++ L')) k = find_entry L' k
      simp only [find_entry, if_neg hr]
      exact ih h

theorem find_entry_update_rows {L : Ledger} {k : PyStr} {e : Entry}
    (h : find_entry L k = some e) (now cnt : Int) :
    find_entry (update_rows L k now cnt) k =
      some { e with last_usage_time := now, usage_count := cnt } := by
  induction L with
  | nil => simp [find_entry] at h
  | cons r rest ih =>
    simp only [find_entry] at h
    simp only [update_rows, List.map_cons]
    by_cases hr : r.path = k
    · rw [if_pos hr] at h ⊢
      cases h
      simp [find_entry, hr]
    · rw [if_neg hr] at h ⊢
      simp only [find_entry, if_neg hr]
      exact ih h

theorem paths_update_rows (L : Ledger) (k : PyStr) (now cnt : Int) :
    (update_rows L k now cnt).map Entry.path = L.map Entry.path := by
  induction L with
  | nil => rfl
  | cons r rest ih =>
    simp only [update_rows, List.map_cons] at ih ⊢
    split <;> simp_all

/-! Lemmas about one update-or-insert step. -/

theorem find_log_usage_core_absent {L : Ledger} {k : PyStr}
    (h : find_entry L k = none) (initial now : Int) :
    find_entry (log_usage_core L k initial now) k = some ⟨k, now, now, initial⟩ := by
  simp only [log_usage_core, h]
  rw [find_entry_append_of_none h]
  simp [find_entry]

theorem find_log_usage_core_present {L : Ledger} {k : PyStr} {e : Entry}
    (h : find_entry L k = some e) (initial now : Int) :
    find_entry (log_usage_core L k initial now) k =
      some ⟨k, e.creation_time, now, e.usage_count + 1⟩ := by
  simp only [log_usage_core, h]
  rw [find_entry_path h, find_entry_update_rows h]
  rw [find_entry_path h]

theorem mem_log_usage_core {L : Ledger} {k : PyStr} {initial now : Int}
    {x : Entry} (hx : x ∈ log_usage_core L k initial now) :
    x ∈ L ∨ (x.last_usage_time = now ∧
      (x.creation_time = now ∨ ∃ e ∈ L, x.creation_time = e.creation_time)) := by
  simp only [log_usage_core] at hx
  cases hf : find_entry L k with
  | none =>
    rw [hf] at hx
    rcases List.mem_append.mp hx with hmem | hnew
    · exact Or.inl hmem
    · right
      simp only [List.mem_singleton] at hnew
      subst hnew
      exact ⟨rfl, Or.inl rfl⟩
  | some e =>
    rw [hf] at hx
    simp only [update_rows] at hx
    rcases List.mem_map.mp hx with ⟨r, hr, hrx⟩
    by_cases hp : r.path = e.path
    · rw [if_pos hp] at hrx
      subst hrx
      exact Or.inr ⟨rfl, Or.inr ⟨r, hr, rfl⟩⟩
    · rw [if_neg hp] at hrx
      subst hrx
      exact Or.inl hr

theorem paths_log_usage_core_absent {L : Ledger} {k : PyStr}
    (h : find_entry L k = none) (initial now : Int) :
    (log_usage_core L k initial now).map Entry.path = L.map Entry.path ++ [k] := by
  simp [log_usage_core, h]

theorem paths_log_usage_core_present {L : Ledger} {k : PyStr} {e : Entry}
    (h : find_entry L k = some e) (initial now : Int) :
    (log_usage_core L k initial now).map Entry.path = L.map Entry.path := by
  simp only [log_usage_core, h]
  exact paths_update_rows L e.path now (e.usage_count + 1)

theorem record_at_valid {root : PyStr} {p : Option PyStr} {k : PyStr}
    (hk : truncate_path root p = some k) (hne : k ≠ [])
    (L : Ledger) (initial now : Int) :
    record_at root L p initial now = log_usage_core L k initial now := by
  simp [record_at, hk, hne]

theorem record_at_invalid {root : PyStr} {p : Option PyStr}
    (hk : truncate_path root p = none ∨ truncate_path root p = some [])
    (L : Ledger) (initial now : Int) :
    record_at root L p initial now = L := by
  rcases hk with hk | hk <;> simp [record_at, hk]

/-- Relation between the `Except`-valued public operation and the
timestamp-explicit transformer: a successful timestamp fetch makes
`_log_usage` apply `record_at` at that timestamp. -/
theorem log_usage_impl_eq_record_at (root : PyStr) (override : Option PyStr)
    (clock : Int) (L : Ledger) (p : Option PyStr) (initial : Int) {t : Int}
    (ht : get_timestamp override clock = Except.ok t) :
    log_usage_impl root override clock L p initial =
      Except.ok (record_at root L p initial t) := by
  simp only [log_usage_impl, record_at]
  cases truncate_path root p with
  | none => rfl
  | some k =>
    by_cases hk : k = []
    · simp [hk]
    · simp [hk, ht]

/-- Repeated `log_usage` calls on a path whose entry is present keep the
creation time, move `last_usage_time` to the last call's timestamp, and
add the number of calls to the usage count. -/
theorem recordAccessList_present {root : PyStr} {p : Option PyStr} {k : PyStr}
    (hk : truncate_path root p = some k) (hne : k ≠ []) :
    ∀ (ts : List Int) (L : Ledger) (e : Entry), find_entry L k = some e →
      find_entry (recordAccessList root L p ts) k =
        some ⟨k, e.creation_time, ts.getLastD e.last_usage_time,
              e.usage_count + ts.length⟩ := by
  intro ts
  induction ts with
  | nil =>
    intro L e he
    have hp := find_entry_path he
    simp only [recordAccessList, List.getLastD, List.length_nil]
    rw [he]
    cases e
    simp_all
  | cons t ts ih =>
    intro L e he
    simp only [recordAccessList]
    rw [record_at_valid hk hne]
    have hstep := find_log_usage_core_present he 1 t
    rw [ih _ _ hstep]
    simp only [List.getLastD_cons, List.length_cons, Option.some.injEq,
      Entry.mk.injEq]
    refine ⟨trivial, trivial, trivial, ?_⟩
    push_cast
    ring

/-! Lemmas about deletion. -/

theorem find_entry_delete_self (L : Ledger) (b : Entry) :
    find_entry (delete_entry L b) b.path = none := by
  induction L with
  | nil => rfl
  | cons r rest ih =>
    simp only [delete_entry]
    by_cases hr : r.path = b.path
    · simpa [hr] using ih
    · simpa [find_entry, hr] using ih

theorem delete_entry_of_absent {L : Ledger} {b : Entry}
    (h : find_entry L b.path = none) : delete_entry L b = L := by
  induction L with
  | nil => rfl
  | cons r rest ih =>
    simp only [find_entry] at h
    by_cases hr : r.path = b.path
    · rw [if_pos hr] at h
      exact absurd h (by simp)
    · rw [if_neg hr] at h
      simp [delete_entry, hr, ih h]

theorem delete_entry_sublist (L : Ledger) (b : Entry) :
    (delete_entry L b).Sublist L := by
  induction L with
  | nil => exact List.Sublist.refl []
  | cons r rest ih =>
    simp only [delete_entry]
    split
    · exact ih.cons r
    · exact ih.cons₂ r

theorem length_delete_entry_of_present {L : Ledger} {b : Entry} {e : Entry}
    (hnd : (L.map Entry.path).Nodup) (h : find_entry L b.path = some e) :
    (delete_entry L b).length + 1 = L.length := by
  induction L with
  | nil => simp [find_entry] at h
  | cons r rest ih =>
    simp only [find_entry] at h
    simp only [List.map_cons, List.nodup_cons] at hnd
    by_cases hr : r.path = b.path
    · have hrest : find_entry rest b.path = none := by
        rw [find_entry_eq_none_iff]
        intro x hx hxp
        exact hnd.1 (by rw [hr, ← hxp]; exact List.mem_map_of_mem Entry.path hx)
      have hdel : delete_entry rest b = rest := delete_entry_of_absent hrest
      simp [delete_entry, hr, hdel]
    · rw [if_neg hr] at h
      simp [delete_entry, hr, ih hnd.2 h]

/-! Reachability invariants. -/

theorem record_at_bound {root : PyStr} {p : Option PyStr} {initial now : Int}
    {L : Ledger}
    (H : ∀ e ∈ L, e.creation_time ≤ e.last_usage_time ∧ e.last_usage_time ≤ now) :
    ∀ x ∈ record_at root L p initial now,
      x.creation_time ≤ x.last_usage_time ∧ x.last_usage_time ≤ now := by
  intro x hx
  cases htr : truncate_path root p with
  | none =>
    rw [record_at_invalid (Or.inl htr)] at hx
    exact H x hx
  | some k =>
    by_cases hk : k = []
    · rw [hk] at htr
      rw [record_at_invalid (Or.inr htr)] at hx
      exact H x hx
    · rw [record_at_valid htr hk] at hx
      rcases mem_log_usage_core hx with hmem | ⟨hlu, hcr⟩
      · exact H x hmem
      · refine ⟨?_, le_of_eq hlu⟩
        rcases hcr with hcr | ⟨e, he, hcr⟩
        · rw [hcr, hlu]
        · calc x.creation_time = e.creation_time := hcr
            _ ≤ e.last_usage_time := (H e he).1
            _ ≤ now := (H e he).2
            _ = x.last_usage_time := hlu.symm

theorem record_at_H {root : PyStr} {p : Option PyStr} {initial now : Int}
    {L : Ledger} {ts : List Int} (hnow : ∀ t ∈ ts, now ≤ t)
    (H : ∀ e ∈ L, e.creation_time ≤ e.last_usage_time ∧
         ∀ t ∈ now :: ts, e.last_usage_time ≤ t) :
    ∀ x ∈ record_at root L p initial now,
      x.creation_time ≤ x.last_usage_time ∧
      ∀ t ∈ ts, x.last_usage_time ≤ t := by
  have Hb : ∀ e ∈ L, e.creation_time ≤ e.last_usage_time ∧
      e.last_usage_time ≤ now := by
    intro e he
    exact ⟨(H e he).1, (H e he).2 now (List.mem_cons_self _ _)⟩
  intro x hx
  have hb := record_at_bound Hb x hx
  exact ⟨hb.1, fun t ht => le_trans hb.2 (hnow t ht)⟩

theorem creation_le_runOps (root : PyStr) :
    ∀ (ops : List LedgerOp) (L : Ledger),
      (opTimestamps ops).Sorted (· ≤ ·) →
      (∀ e ∈ L, e.creation_time ≤ e.last_usage_time ∧
        ∀ t ∈ opTimestamps ops, e.last_usage_time ≤ t) →
      ∀ e ∈ runOps root L ops, e.creation_time ≤ e.last_usage_time := by
  intro ops
  induction ops with
  | nil =>
    intro L _ H e he
    exact (H e he).1
  | cons op rest ih =>
    intro L hsort H
    cases op with
    | access p now =>
      simp only [opTimestamps] at hsort H
      rw [List.sorted_cons] at hsort
      exact ih _ hsort.2 (record_at_H hsort.1 H)
    | markUnused p now =>
      simp only [opTimestamps] at hsort H
      rw [List.sorted_cons] at hsort
      exact ih _ hsort.2 (record_at_H hsort.1 H)
    | del b =>
      simp only [opTimestamps] at hsort H
      refine ih (delete_entry L b) hsort ?_
      intro e he
      exact H e ((delete_entry_sublist L b).subset he)

theorem pathsNodup_record_at {root : PyStr} {p : Option PyStr}
    {initial now : Int} {L : Ledger} (h : (L.map Entry.path).Nodup) :
    ((record_at root L p initial now).map Entry.path).Nodup := by
  cases htr : truncate_path root p with
  | none =>
    rw [record_at_invalid (Or.inl htr)]
    exact h
  | some k =>
    by_cases hk : k = []
    · rw [hk] at htr
      rw [record_at_invalid (Or.inr htr)]
      exact h
    · rw [record_at_valid htr hk]
      cases hf : find_entry L k with
      | some e =>
        rw [paths_log_usage_core_present hf]
        exact h
      | none =>
        rw [paths_log_usage_core_absent hf, List.nodup_append]
        refine ⟨h, List.nodup_singleton k, ?_⟩
        intro a ha hak
        rw [List.mem_singleton] at hak
        subst hak
        rw [find_entry_eq_none_iff] at hf
        rcases List.mem_map.mp ha with ⟨e, he, hep⟩
        exact hf e he hep

theorem pathsNodup_runOps (root : PyStr) (ops : List LedgerOp) :
    ∀ L : Ledger, (L.map Entry.path).Nodup →
      ((runOps root L ops).map Entry.path).Nodup := by
  induction ops with
  | nil =>
    intro L h
    exact h
  | cons op rest ih =>
    intro L h
    refine ih _ ?_
    cases op with
    | access p now => exact pathsNodup_record_at h
    | markUnused p now => exact pathsNodup_record_at h
    | del b =>
      exact List.Nodup.sublist ((delete_entry_sublist L b).map Entry.path) h

/-- C1: for a path under the cache root that normalizes to a nonempty
key not yet present in the table, the first `log_usage` call at time
`t1` creates the entry with `usage_count = 1` and
`creation_time = last_usage_time = t1`; after the calls at times
`t1 :: ts` the entry has `usage_count` equal to the number of calls,
`last_usage_time` equal to the last call's timestamp, and
`creation_time` still `t1`. -/
theorem bcud_C1_record_access_counts (root : PyStr) (p : Option PyStr)
    (k : PyStr) (L : Ledger) (t1 : Int) (ts : List Int)
    (hk : truncate_path root p = some k) (hne : k ≠ [])
    (habsent : find_entry L k = none) :
    find_entry (record_at root L p 1 t1) k = some ⟨k, t1, t1, 1⟩ ∧
    find_entry (recordAccessList root L p (t1 :: ts)) k =
      some ⟨k, t1, ts.getLastD t1, 1 + ts.length⟩ := by
  have h1 : find_entry (record_at root L p 1 t1) k = some ⟨k, t1, t1, 1⟩ := by
    rw [record_at_valid hk hne]
    exact find_log_usage_core_absent habsent 1 t1
  refine ⟨h1, ?_⟩
  show find_entry (recordAccessList root (record_at root L p 1 t1) p ts) k = _
  exact recordAccessList_present hk hne ts _ _ h1

theorem bcud_C1_record_access_counts_witness :
    find_entry (record_at "/cache".toList [] (some "/cache/app".toList) 1 3)
        "app".toList = some ⟨"app".toList, 3, 3, 1⟩ ∧
    find_entry (recordAccessList "/cache".toList [] (some "/cache/app".toList)
        (3 :: [5])) "app".toList =
      some ⟨"app".toList, 3, [5].getLastD 3, 1 + [5].length⟩ :=
  bcud_C1_record_access_counts "/cache".toList (some "/cache/app".toList)
    "app".toList [] 3 [5] (by decide) (by decide) (by decide)

/-- C4: `add_unused_bundle` on an absent (valid) path inserts an entry
with `usage_count = 0` and `creation_time = last_usage_time = now`; on a
present path it acts exactly like `log_usage`; and mark-unused followed
by one access yields `usage_count = 1`, not 2. -/
theorem bcud_C4_add_unused (root : PyStr) (p : Option PyStr) (k : PyStr)
    (L : Ledger) (now now2 : Int)
    (hk : truncate_path root p = some k) (hne : k ≠ []) :
    (find_entry L k = none →
      find_entry (record_at root L p 0 now) k = some ⟨k, now, now, 0⟩) ∧
    (∀ e, find_entry L k = some e →
      record_at root L p 0 now = record_at root L p 1 now) ∧
    (find_entry L k = none →
      find_entry (record_at root (record_at root L p 0 now) p 1 now2) k =
        some ⟨k, now, now2, 1⟩) := by
  refine ⟨?_, ?_, ?_⟩
  · intro h
    rw [record_at_valid hk hne]
    exact find_log_usage_core_absent h 0 now
  · intro e he
    rw [record_at_valid hk hne, record_at_valid hk hne]
    simp [log_usage_core, he]
  · intro h
    rw [record_at_valid hk hne, record_at_valid hk hne]
    have h0 : find_entry (log_usage_core L k 0 now) k = some ⟨k, now, now, 0⟩ :=
      find_log_usage_core_absent h 0 now
    simpa using find_log_usage_core_present h0 1 now2

theorem bcud_C4_add_unused_witness :
    (find_entry ([] : Ledger) "app".toList = none →
      find_entry (record_at "/cache".toList [] (some "/cache/app".toList) 0 7)
        "app".toList = some ⟨"app".toList, 7, 7, 0⟩) ∧
    (∀ e, find_entry ([] : Ledger) "app".toList = some e →
      record_at "/cache".toList [] (some "/cache/app".toList) 0 7 =
        record_at "/cache".toList [] (some "/cache/app".toList) 1 7) ∧
    (find_entry ([] : Ledger) "app".toList = none →
      find_entry (record_at "/cache".toList
          (record_at "/cache".toList [] (some "/cache/app".toList) 0 7)
          (some "/cache/app".toList) 1 9) "app".toList =
        some ⟨"app".toList, 7, 9, 1⟩) :=
  bcud_C4_add_unused "/cache".toList (some "/cache/app".toList)
    "app".toList [] 7 9 (by decide) (by decide)

/-- C5: for an absent (`None`), empty, or out-of-root path, `log_usage`
and `add_unused_bundle` succeed leaving the table unchanged (so the
count is unchanged and no error is raised even with a bad override
value), and `get_bundle` returns `none`. -/
theorem bcud_C5_invalid_paths_noop (root : PyStr) (p : Option PyStr)
    (override : Option PyStr) (clock : Int) (L : Ledger)
    (h : p = none ∨ p = some [] ∨
      ∃ s, p = some s ∧ root.isPrefixOf s = false) :
    log_usage root override clock L p = Except.ok L ∧
    add_unused_bundle root override clock L p = Except.ok L ∧
    get_bundle root L p = none ∧
    (∀ L', log_usage root override clock L p = Except.ok L' →
      get_bundle_count L' = get_bundle_count L) := by
  have htr : truncate_path root p = none := by
    rcases h with rfl | rfl | ⟨s, rfl, hs⟩
    · rfl
    · simp [truncate_path]
    · simp [truncate_path, hs]
  refine ⟨?_, ?_, ?_, ?_⟩
  · simp [log_usage, log_usage_impl, htr]
  · simp [add_unused_bundle, log_usage_impl, htr]
  · simp [get_bundle, htr]
  · intro L' hL'
    simp [log_usage, log_usage_impl, htr] at hL'
    rw [hL']

theorem bcud_C5_invalid_paths_noop_witness :
    log_usage "/cache".toList (some "bad".toList) 11
        [⟨"app".toList, 1, 1, 1⟩] (some "/elsewhere/x".toList) =
      Except.ok [⟨"app".toList, 1, 1, 1⟩] ∧
    add_unused_bundle "/cache".toList (some "bad".toList) 11
        [⟨"app".toList, 1, 1, 1⟩] (some "/elsewhere/x".toList) =
      Except.ok [⟨"app".toList, 1, 1, 1⟩] ∧
    get_bundle "/cache".toList [⟨"app".toList, 1, 1, 1⟩]
        (some "/elsewhere/x".toList) = none ∧
    (∀ L', log_usage "/cache".toList (some "bad".toList) 11
        [⟨"app".toList, 1, 1, 1⟩] (some "/elsewhere/x".toList) = Except.ok L' →
      get_bundle_count L' = get_bundle_count [⟨"app".toList, 1, 1, 1⟩]) :=
  bcud_C5_invalid_paths_noop "/cache".toList (some "/elsewhere/x".toList)
    (some "bad".toList) 11 [⟨"app".toList, 1, 1, 1⟩]
    (Or.inr (Or.inr ⟨"/elsewhere/x".toList, rfl, by decide⟩))

/-- C6: `get_unused_bundles t` contains exactly the entries whose
`last_usage_time` is at most `t` (every such entry, none with a later
timestamp), and contains no duplicates when the table's paths are
unique. -/
theorem bcud_C6_unused_bundles (L : Ledger) (t : Int) :
    (∀ e, e ∈ get_unused_bundles L t ↔ e ∈ L ∧ e.last_usage_time ≤ t) ∧
    ((L.map Entry.path).Nodup → (get_unused_bundles L t).Nodup) := by
  constructor
  · intro e
    simp [get_unused_bundles, List.mem_filter]
  · intro h
    exact List.Nodup.sublist (List.filter_sublist L) (List.Nodup.of_map _ h)

theorem bcud_C6_unused_bundles_witness :
    (⟨"a".toList, 1, 2, 1⟩ ∈
        get_unused_bundles [⟨"a".toList, 1, 2, 1⟩, ⟨"b".toList, 1, 9, 1⟩] 5 ↔
      ⟨"a".toList, 1, 2, 1⟩ ∈
          ([⟨"a".toList, 1, 2, 1⟩, ⟨"b".toList, 1, 9, 1⟩] : Ledger) ∧
        (⟨"a".toList, 1, 2, 1⟩ : Entry).last_usage_time ≤ 5) ∧
    (get_unused_bundles [⟨"a".toList, 1, 2, 1⟩, ⟨"b".toList, 1, 9, 1⟩] 5).Nodup :=
  ⟨(bcud_C6_unused_bundles [⟨"a".toList, 1, 2, 1⟩, ⟨"b".toList, 1, 9, 1⟩] 5).1 _,
   (bcud_C6_unused_bundles [⟨"a".toList, 1, 2, 1⟩, ⟨"b".toList, 1, 9, 1⟩] 5).2
     (by decide)⟩

/-- C7: `delete_entry` removes the record with the argument's path (a
lookup afterwards finds nothing), is the identity when no such record
exists, and on a table with unique paths removes exactly one row, so
the count decreases by one. -/
theorem bcud_C7_delete (L : Ledger) (b : Entry) :
    find_entry (delete_entry L b) b.path = none ∧
    (find_entry L b.path = none → delete_entry L b = L) ∧
    ((L.map Entry.path).Nodup → ∀ e, find_entry L b.path = some e →
      get_bundle_count (delete_entry L b) + 1 = get_bundle_count L) := by
  refine ⟨find_entry_delete_self L b, fun h => delete_entry_of_absent h, ?_⟩
  intro hnd e he
  exact length_delete_entry_of_present hnd he

theorem bcud_C7_delete_witness :
    find_entry (delete_entry [⟨"a".toList, 1, 2, 1⟩, ⟨"b".toList, 1, 9, 1⟩]
        ⟨"a".toList, 1, 2, 1⟩) "a".toList = none ∧
    (find_entry ([⟨"a".toList, 1, 2, 1⟩, ⟨"b".toList, 1, 9, 1⟩] : Ledger)
        "a".toList = none →
      delete_entry [⟨"a".toList, 1, 2, 1⟩, ⟨"b".toList, 1, 9, 1⟩]
          ⟨"a".toList, 1, 2, 1⟩ =
        [⟨"a".toList, 1, 2, 1⟩, ⟨"b".toList, 1, 9, 1⟩]) ∧
    ((([⟨"a".toList, 1, 2, 1⟩, ⟨"b".toList, 1, 9, 1⟩] : Ledger).map
        Entry.path).Nodup →
      ∀ e, find_entry ([⟨"a".toList, 1, 2, 1⟩, ⟨"b".toList, 1, 9, 1⟩] : Ledger)
          "a".toList = some e →
        get_bundle_count (delete_entry
            [⟨"a".toList, 1, 2, 1⟩, ⟨"b".toList, 1, 9, 1⟩]
            ⟨"a".toList, 1, 2, 1⟩) + 1 =
          get_bundle_count
            ([⟨"a".toList, 1, 2, 1⟩, ⟨"b".toList, 1, 9, 1⟩] : Ledger)) :=
  bcud_C7_delete [⟨"a".toList, 1, 2, 1⟩, ⟨"b".toList, 1, 9, 1⟩]
    ⟨"a".toList, 1, 2, 1⟩

/-- C9: starting from an empty table, no sequence of access, mark-unused
and delete operations, whatever timestamps the source produces, ever
yields two rows with the same path. -/
theorem bcud_C9_paths_unique (root : PyStr) (ops : List LedgerOp) :
    ((runOps root [] ops).map Entry.path).Nodup :=
  pathsNodup_runOps root ops [] (by simp)

/-- C2 is false as stated: the timestamp source (overridable through the
environment) can produce a smaller value on the second access, and
`_log_usage` then stores `creation_time = 10 > 5 = last_usage_time`. -/
theorem bcud_C2_counterexample :
    ∃ e, e ∈ runOps "/c".toList []
        [LedgerOp.access (some "/c/x".toList) 10,
         LedgerOp.access (some "/c/x".toList) 5] ∧
      ¬ e.creation_time ≤ e.last_usage_time := by
  refine ⟨⟨"x".toList, 10, 5, 2⟩, by decide, by decide⟩

/-- C2 amended: if the timestamps produced by the source over the run
are non-decreasing (as they are for the live clock), every entry of any
reachable table satisfies `creation_time ≤ last_usage_time`. -/
theorem bcud_C2_creation_le_last_usage (root : PyStr) (ops : List LedgerOp)
    (e : Entry) (hmono : (opTimestamps ops).Sorted (· ≤ ·))
    (he : e ∈ runOps root [] ops) :
    e.creation_time ≤ e.last_usage_time :=
  creation_le_runOps root ops [] hmono
    (fun x hx => absurd hx (List.not_mem_nil x)) e he

theorem bcud_C2_creation_le_last_usage_witness :
    (⟨"x".toList, 5, 10, 2⟩ : Entry).creation_time ≤
      (⟨"x".toList, 5, 10, 2⟩ : Entry).last_usage_time :=
  bcud_C2_creation_le_last_usage "/c".toList
    [LedgerOp.access (some "/c/x".toList) 5,
     LedgerOp.access (some "/c/x".toList) 10]
    ⟨"x".toList, 5, 10, 2⟩ (by decide) (by decide)

/-- C3 is false as stated: `_truncate_path` uses `str.replace`, which
removes every occurrence of the cache root, not just the leading prefix:
for root `/cache` and input `/cache/cache` it yields the empty string
where prefix removal would yield `cache`. -/
theorem bcud_C3_counterexample :
    truncate_path "/cache".toList (some "/cache/cache".toList) = some [] ∧
    truncate_path_spec "/cache".toList (some "/cache/cache".toList)
      = some "cache".toList ∧
    some ([] : PyStr) ≠ some "cache".toList := by
  refine ⟨by decide, by decide, by decide⟩

/-- C3 amended: normalization returns no key iff the input is absent,
empty, or does not begin with the cache root; otherwise it removes every
occurrence of the cache-root substring plus one leading separator (it is
a total function, so it never raises), and this agrees with removing
exactly the leading prefix whenever the root does not occur again in the
remainder. -/
theorem bcud_C3_truncate_path (root s : PyStr) :
    truncate_path root none = none ∧
    (truncate_path root (some s) = none ↔
      (s = [] ∨ ¬ root.isPrefixOf s = true)) ∧
    (s ≠ [] → root.isPrefixOf s = true →
      truncate_path root (some s) = some (stripLeadingSep (removeAll root s))) ∧
    (s ≠ [] → root.isPrefixOf s = true → ¬ root <:+: s.drop root.length →
      truncate_path root (some s) = truncate_path_spec root (some s)) := by
  refine ⟨rfl, ?_, ?_, ?_⟩
  · show (if s = [] ∨ ¬ root.isPrefixOf s = true then none
        else some (stripLeadingSep (removeAll root s))) = none ↔ _
    by_cases h : s = [] ∨ ¬ root.isPrefixOf s = true
    · rw [if_pos h]
      exact iff_of_true rfl h
    · rw [if_neg h]
      exact iff_of_false (by simp) h
  · intro hne hpre
    simp [truncate_path, hne, hpre]
  · intro hne hpre hninf
    have hroot : root ≠ [] := by
      rintro rfl
      exact hninf List.nil_infix
    have hs : root ++ s.drop root.length = s :=
      List.prefix_iff_eq_append.mp ( List.isPrefixOf_iff_prefix.mp hpre)
    have hrem : removeAll root s = s.drop root.length := by
      conv_lhs => rw [← hs]
      rw [removeAll_append_self root hroot]
      exact removeAll_of_not_occurring root _ hninf
    simp [truncate_path, truncate_path_spec, hne, hpre, hrem]

theorem bcud_C3_truncate_path_witness :
    truncate_path "/cache".toList (some "/cache/app".toList) =
      truncate_path_spec "/cache".toList (some "/cache/app".toList) :=
  (bcud_C3_truncate_path "/cache".toList "/cache/app".toList).2.2.2
    (by decide) (by decide) (by decide)

/-- C8: an unset or empty override means the live clock is used (and
`log_usage` succeeds with it); a nonempty integer-parseable override is
used as the timestamp; a nonempty non-parseable override makes the
timestamp fetch and with it every recording operation on a valid path
fail with a conversion error rather than fall back. -/
theorem bcud_C8_timestamp_override (root : PyStr) (p : Option PyStr)
    (k : PyStr) (L : Ledger) (clock : Int) (s : PyStr) (n : Int)
    (hk : truncate_path root p = some k) (hne : k ≠ []) :
    get_timestamp none clock = Except.ok clock ∧
    get_timestamp (some []) clock = Except.ok clock ∧
    log_usage root none clock L p = Except.ok (record_at root L p 1 clock) ∧
    (s ≠ [] → pyInt s = some n → get_timestamp (some s) clock = Except.ok n) ∧
    (s ≠ [] → pyInt s = none →
      get_timestamp (some s) clock = Except.error () ∧
      log_usage root (some s) clock L p = Except.error () ∧
      add_unused_bundle root (some s) clock L p = Except.error ()) := by
  refine ⟨rfl, by simp [get_timestamp], ?_, ?_, ?_⟩
  · exact log_usage_impl_eq_record_at root none clock L p 1 rfl
  · intro hs hparse
    simp [get_timestamp, hs, hparse]
  · intro hs hparse
    have hts : get_timestamp (some s) clock = Except.error () := by
      simp [get_timestamp, hs, hparse]
    refine ⟨hts, ?_, ?_⟩
    · simp [log_usage, log_usage_impl, hk, hne, hts]
    · simp [add_unused_bundle, log_usage_impl, hk, hne, hts]

theorem bcud_C8_timestamp_override_witness :
    get_timestamp none 42 = Except.ok 42 ∧
    get_timestamp (some []) 42 = Except.ok 42 ∧
    log_usage "/cache".toList none 42 [] (some "/cache/app".toList) =
      Except.ok (record_at "/cache".toList [] (some "/cache/app".toList) 1 42) ∧
    ("zzz".toList ≠ [] → pyInt "zzz".toList = some 7 →
      get_timestamp (some "zzz".toList) 42 = Except.ok 7) ∧
    ("zzz".toList ≠ [] → pyInt "zzz".toList = none →
      get_timestamp (some "zzz".toList) 42 = Except.error () ∧
      log_usage "/cache".toList (some "zzz".toList) 42 []
          (some "/cache/app".toList) = Except.error () ∧
      add_unused_bundle "/cache".toList (some "zzz".toList) 42 []
          (some "/cache/app".toList) = Except.error ()) :=
  bcud_C8_timestamp_override "/cache".toList (some "/cache/app".toList)
    "app".toList [] 42 "zzz".toList 7 (by decide) (by decide)

theorem truncate_path_self (root : PyStr) (hroot : root ≠ []) :
    truncate_path root (some root) = some [] := by
  have hpre : root.isPrefixOf root = true := by
    rw [ List.isPrefixOf_iff_prefix]
  show (if root = [] ∨ ¬ root.isPrefixOf root = true then none
      else some (stripLeadingSep (removeAll root root))) = some []
  rw [if_neg (by simp [hroot, hpre])]
  have hrem : removeAll root root = [] := by
    have h2 : removeAll root (root ++ []) = removeAll root [] :=
      removeAll_append_self root hroot []
    rw [List.append_nil] at h2
    rw [h2, removeAll_nil]
  rw [hrem]
  rfl

theorem strip_removeAll_sep (root : PyStr) (hroot : root ≠ []) :
    stripLeadingSep (removeAll root [OS_SEP]) = [] := by
  by_cases hp : root.isPrefixOf [OS_SEP] = true
  · have hsep : root = [OS_SEP] := by
      have hpre := List.isPrefixOf_iff_prefix.mp hp
      cases root with
      | nil => exact absurd rfl hroot
      | cons c rs =>
        cases rs with
        | nil =>
          rcases hpre with ⟨t, ht⟩
          simp at ht
          simp [ht.1]
        | cons d ds =>
          have := hpre.length_le
          simp at this
    subst hsep
    rw [removeAll_cons, if_pos ⟨hroot, by decide⟩]
    simp [removeAll_nil, stripLeadingSep]
  · rw [removeAll_cons, if_neg (by rintro ⟨-, hpre⟩; exact hp hpre),
        removeAll_nil]
    simp [stripLeadingSep, List.isPrefixOf]

theorem truncate_path_root_sep (root : PyStr) (hroot : root ≠ []) :
    truncate_path root (some (root ++ [OS_SEP])) = some [] := by
  have hpre : root.isPrefixOf (root ++ [OS_SEP]) = true := by
    rw [ List.isPrefixOf_iff_prefix]
    exact List.prefix_append _ _
  show (if root ++ [OS_SEP] = [] ∨ ¬ root.isPrefixOf (root ++ [OS_SEP]) = true
      then none
      else some (stripLeadingSep (removeAll root (root ++ [OS_SEP]))))
    = some []
  rw [if_neg (by simp [hpre])]
  rw [removeAll_append_self root hroot, strip_removeAll_sep root hroot]

/-- C10: a path equal to the cache root, or to the root followed only by
a separator, normalizes to the empty string, which every operation
treats as no key: `log_usage` and `add_unused_bundle` leave the table
unchanged without error and `get_bundle` returns `none`. -/
theorem bcud_C10_root_path_noop (root : PyStr) (override : Option PyStr)
    (clock : Int) (L : Ledger) (hroot : root ≠ []) :
    truncate_path root (some root) = some [] ∧
    truncate_path root (some (root ++ [OS_SEP])) = some [] ∧
    log_usage root override clock L (some root) = Except.ok L ∧
    log_usage root override clock L (some (root ++ [OS_SEP])) = Except.ok L ∧
    add_unused_bundle root override clock L (some root) = Except.ok L ∧
    add_unused_bundle root override clock L (some (root ++ [OS_SEP]))
      = Except.ok L ∧
    get_bundle root L (some root) = none ∧
    get_bundle root L (some (root ++ [OS_SEP])) = none := by
  have h1 := truncate_path_self root hroot
  have h2 := truncate_path_root_sep root hroot
  refine ⟨h1, h2, ?_, ?_, ?_, ?_, ?_, ?_⟩
  · simp [log_usage, log_usage_impl, h1]
  · simp [log_usage, log_usage_impl, h2]
  · simp [add_unused_bundle, log_usage_impl, h1]
  · simp [add_unused_bundle, log_usage_impl, h2]
  · simp [get_bundle, h1]
  · simp [get_bundle, h2]

theorem bcud_C10_root_path_noop_witness :
    truncate_path "/c".toList (some "/c".toList) = some [] ∧
    truncate_path "/c".toList (some ("/c".toList ++ [OS_SEP])) = some [] ∧
    log_usage "/c".toList none 4 [⟨"x".toList, 1, 1, 1⟩] (some "/c".toList) =
      Except.ok [⟨"x".toList, 1, 1, 1⟩] ∧
    log_usage "/c".toList none 4 [⟨"x".toList, 1, 1, 1⟩]
        (some ("/c".toList ++ [OS_SEP])) =
      Except.ok [⟨"x".toList, 1, 1, 1⟩] ∧
    add_unused_bundle "/c".toList none 4 [⟨"x".toList, 1, 1, 1⟩]
        (some "/c".toList) = Except.ok [⟨"x".toList, 1, 1, 1⟩] ∧
    add_unused_bundle "/c".toList none 4 [⟨"x".toList, 1, 1, 1⟩]
        (some ("/c".toList ++ [OS_SEP])) =
      Except.ok [⟨"x".toList, 1, 1, 1⟩] ∧
    get_bundle "/c".toList [⟨"x".toList, 1, 1, 1⟩] (some "/c".toList) = none ∧
    get_bundle "/c".toList [⟨"x".toList, 1, 1, 1⟩]
        (some ("/c".toList ++ [OS_SEP])) = none :=
  bcud_C10_root_path_noop "/c".toList none 4 [⟨"x".toList, 1, 1, 1⟩]
    (by decide)

example : truncate_path "/cache".toList (some "/cache/app/v1".toList)
    = some "app/v1".toList := by decide

example : truncate_path "/cache".toList (some "/cache/cache".toList)
    = some [] := by decide

example : truncate_path "/cache".toList (some "/other/x".toList) = none := by decide

example : pyInt " -42 ".toList = some (-42) := by decide

example : pyInt "12x".toList = none := by decide
